import Mathlib

/-!
# Verification of the place-detective core

A shallow embedding of `src/place_detective.py` (region geometry, fetch
orchestration, record normalization, similarity scoring and findings
analysis), together with theorems settling the specification claims.

Modelling conventions:
* Bounding boxes are embedded structurally (the Python code passes them as
  `"south,west,north,east"` strings and re-parses them with `float`; the
  string round trip is lossless, so we work with the four coordinates
  directly, as exact rationals).
* Python floats are modelled as `ℚ` (all arithmetic involved is exact).
* Python dicts (element attribute maps, JSON objects) are modelled as
  insertion-ordered association lists; lookup takes the first binding.
* The external Overpass service is modelled as a function
  `q : BBox → Option (List RawElement)` giving, for each bounding box the
  orchestrator queries (with the search specification fixed), either the
  element list of a well-formed response or `none` for a transport/decode
  failure or a response without an `elements` member.
* Fallible Python code (`KeyError` on a missing `lat`/`lon`) is embedded
  with `Option`.
-/

namespace PlaceDetective

/-! ## Region geometry (`calculate_bbox_area`, `split_bbox_into_tiles`) -/

/-- A bounding box `south,west,north,east`, as parsed by
`south, west, north, east = map(float, bbox_str.split(','))`. -/
structure BBox where
  south : ℚ
  west : ℚ
  north : ℚ
  east : ℚ
deriving DecidableEq, Repr

/-- `calculate_bbox_area`: `(north - south) * (east - west)`. -/
def calculate_bbox_area (b : BBox) : ℚ :=
  (b.north - b.south) * (b.east - b.west)

/-- The continuation condition of the grid-size loop:
`grid_size * grid_size < max_tiles and area / (grid_size * grid_size) > 1.0`. -/
def gridCont (area : ℚ) (max_tiles g : ℕ) : Prop :=
  g * g < max_tiles ∧ 1 < area / ((g * g : ℕ) : ℚ)

instance (area : ℚ) (max_tiles g : ℕ) : Decidable (gridCont area max_tiles g) :=
  inferInstanceAs (Decidable (_ ∧ _))

/-- The `while` loop of `split_bbox_into_tiles`:
`while grid_size * grid_size < max_tiles and area / (grid_size * grid_size) > 1.0:
grid_size += 1`, written with explicit fuel (the loop always exits by
`g = max_tiles` at the latest, so `max_tiles + 2` steps of fuel starting
from `g = 2` suffice). -/
def gridLoop (area : ℚ) (max_tiles : ℕ) : ℕ → ℕ → ℕ
  | 0, g => g
  | fuel + 1, g =>
    if gridCont area max_tiles g then gridLoop area max_tiles fuel (g + 1)
    else g

/-- The grid size chosen by `split_bbox_into_tiles`: start at `2` and run
the loop. -/
def gridSize (area : ℚ) (max_tiles : ℕ) : ℕ :=
  gridLoop area max_tiles (max_tiles + 2) 2

/-- The tile at grid position `(i, j)` (`i` counts south-to-north,
`j` west-to-east):
`tile_south = south + i * lat_step`, `tile_north = south + (i+1) * lat_step`,
`tile_west = west + j * lon_step`, `tile_east = west + (j+1) * lon_step`. -/
def tileAt (b : BBox) (g : ℕ) (i j : ℕ) : BBox :=
  { south := b.south + i * ((b.north - b.south) / g)
    west := b.west + j * ((b.east - b.west) / g)
    north := b.south + (i + 1) * ((b.north - b.south) / g)
    east := b.west + (j + 1) * ((b.east - b.west) / g) }

/-- `split_bbox_into_tiles`: return `[bbox]` when the area is at most
`1.0`; otherwise partition into a `grid_size × grid_size` grid, the
latitude index `i` as the outer loop and the longitude index `j` as the
inner loop. -/
def split_bbox_into_tiles (b : BBox) (max_tiles : ℕ) : List BBox :=
  let area := calculate_bbox_area b
  if area ≤ 1 then [b]
  else
    let g := gridSize area max_tiles
    (List.range g).flatMap fun i => (List.range g).map fun j => tileAt b g i j

/-! ## Raw elements and the fetch orchestrator -/

/-- An element of an Overpass response: type tag, numeric id, optional
direct coordinates, optional nested `center` coordinates, and the
attribute map (an absent `tags` object is modelled as the empty map,
which the code treats identically). -/
structure RawElement where
  type : String
  id : ℤ
  lat? : Option ℚ
  lon? : Option ℚ
  center : Option (ℚ × ℚ)
  tags : List (String × String)
deriving DecidableEq, Repr

/-- The deduplication key `f"{element['type']}{element['id']}"`. -/
def elemKey (e : RawElement) : String :=
  e.type ++ toString e.id

/-- Deduplication with a `seen` set: keep an element only when its key has
not been seen, first occurrence wins (the `seen_ids` loop of
`query_overpass_with_chunking`, generalized over the key function). -/
def dedupByKey {α β : Type} [DecidableEq β] (key : α → β) :
    List β → List α → List α
  | _, [] => []
  | seen, x :: xs =>
    if key x ∈ seen then dedupByKey key seen xs
    else x :: dedupByKey key (key x :: seen) xs

/-- The deduplication pass of `query_overpass_with_chunking`. -/
def dedup_elements (l : List RawElement) : List RawElement :=
  dedupByKey elemKey [] l

/-- The orchestrator's return value: the `elements` member, plus the
`generator` member which the chunked path sets to
`'place_detective_chunked'` (`none` models a pass-through single-query
response, whose other members the orchestrator does not touch). -/
structure OverpassResult where
  elements : List RawElement
  generator : Option String
deriving DecidableEq, Repr

/-- `query_overpass_with_chunking`, parametrized by the external service
`q` (see the module docstring). Small area: issue the single query and
return its response unchanged (`None` on failure). Large area: split into
tiles with `max_tiles = 16` (the call site uses the default), collect the
elements of each successful tile (a failed tile contributes nothing),
deduplicate by `elemKey`, and always return a result object. -/
def query_overpass_with_chunking (q : BBox → Option (List RawElement))
    (bbox : BBox) : Option OverpassResult :=
  let area := calculate_bbox_area bbox
  if area ≤ 1 then
    (q bbox).map fun es => { elements := es, generator := none }
  else
    let tiles := split_bbox_into_tiles bbox 16
    let all_elements := tiles.flatMap fun t => (q t).getD []
    some { elements := dedup_elements all_elements
           generator := some "place_detective_chunked" }

/-! ## Record normalization (`extract_place_info`) -/

/-- The fixed category priority set of `extract_place_info`. -/
def categoryKeys : List String :=
  ["amenity", "shop", "leisure", "tourism", "healthcare", "education"]

/-- The category loop of `extract_place_info`:
`for key, value in tags.items(): if key in [...]: ...; break` — the map is
iterated in insertion order and the first binding whose key lies in
`categoryKeys` wins; `("unknown", "unknown")` when none does. -/
def placeCategory (tags : List (String × String)) : String × String :=
  match tags.find? (fun kv => categoryKeys.contains kv.1) with
  | some kv => (kv.1, kv.2)
  | none => ("unknown", "unknown")

/-- The address assembly of `extract_place_info`: the values of
`addr:housenumber`, `addr:street`, `addr:district`, `addr:city` in this
order, each included only if present, joined with `", "`; `None` when no
part is present. -/
def placeAddress (tags : List (String × String)) : Option String :=
  let parts := ["addr:housenumber", "addr:street", "addr:district",
    "addr:city"].filterMap fun k => tags.lookup k
  match parts with
  | [] => none
  | ps => some (String.intercalate ", " ps)

/-- A normalized place record (`place_info` dict). -/
structure PlaceInfo where
  name : String
  type : String
  id : ℤ
  lat : Option ℚ
  lon : Option ℚ
  category : String
  subcategory : String
  address : Option String
  phone : Option String
  website : Option String
  opening_hours : Option String
  brand : Option String
  cuisine : Option String
  tags : List (String × String)
deriving DecidableEq, Repr

/-- Coordinate resolution of `extract_place_info`. For a `node` the code
reads `element['lat'], element['lon']` unconditionally, which raises
`KeyError` when either is absent — modelled as `none` (undefined result).
Otherwise: nested `center` coordinates if present, else both `null`. -/
def elementCoords (e : RawElement) : Option (Option ℚ × Option ℚ) :=
  if e.type = "node" then
    match e.lat?, e.lon? with
    | some la, some lo => some (some la, some lo)
    | _, _ => none
  else
    match e.center with
    | some c => some (some c.1, some c.2)
    | none => some (none, none)

/-- The body of the `extract_place_info` loop for one element: `none` when
the element is skipped (no `name` attribute), otherwise the normalized
record; the outer `Option` is the `KeyError` of `elementCoords`. -/
def extractElement (e : RawElement) : Option (Option PlaceInfo) :=
  match e.tags.lookup "name" with
  | none => some none
  | some name =>
    match elementCoords e with
    | none => none
    | some (la, lo) =>
      let cat := placeCategory e.tags
      some (some
        { name := name
          type := e.type
          id := e.id
          lat := la
          lon := lo
          category := cat.1
          subcategory := cat.2
          address := placeAddress e.tags
          phone := e.tags.lookup "phone"
          website := e.tags.lookup "website"
          opening_hours := e.tags.lookup "opening_hours"
          brand := e.tags.lookup "brand"
          cuisine := e.tags.lookup "cuisine"
          tags := e.tags })

/-- `extract_place_info`: normalize a list of raw elements, dropping
unnamed elements; undefined (`none`) as soon as one element raises. -/
def extract_place_info : List RawElement → Option (List PlaceInfo)
  | [] => some []
  | e :: es =>
    match extractElement e, extract_place_info es with
    | some p?, some rest =>
      some (match p? with
        | some p => p :: rest
        | none => rest)
    | _, _ => none

/-- The fetch-then-normalize composition of `main`:
`result = query_overpass_with_chunking(...)` followed by
`places = extract_place_info(result['elements'])`; `none` when the fetch
failed (or normalization is undefined). -/
def pipeline_places (q : BBox → Option (List RawElement)) (bbox : BBox) :
    Option (List PlaceInfo) :=
  match query_overpass_with_chunking q bbox with
  | none => none
  | some r => extract_place_info r.elements

/-! ## Concrete fixtures of the end-to-end scenario -/

/-- The Bangkok city region `13.5,100.1,14.2,100.9` of the end-to-end
scenario (area `0.7 * 0.8 = 0.56`). -/
def bangkokBBox : BBox :=
  { south := 135/10, west := 1001/10, north := 142/10, east := 1009/10 }

/-- The raw record the end-to-end scenario duplicates:
`{type:"node", id:1, lat:13.7, lon:100.5,
tags:{name:"Lotus Mart", shop:"supermarket"}}`. -/
def lotusElem : RawElement :=
  { type := "node", id := 1, lat? := some (137/10), lon? := some (1005/10),
    center := none,
    tags := [("name", "Lotus Mart"), ("shop", "supermarket")] }

/-- The normalization of `lotusElem`. -/
def lotusPlace : PlaceInfo :=
  { name := "Lotus Mart", type := "node", id := 1, lat := some (137/10),
    lon := some (1005/10), category := "shop", subcategory := "supermarket",
    address := none, phone := none, website := none, opening_hours := none,
    brand := none, cuisine := none,
    tags := [("name", "Lotus Mart"), ("shop", "supermarket")] }

/-! ## Similarity engine

The scoring algorithms live in the external `fuzzywuzzy` package, which is
not part of this repository; they are modelled from the specification
(section 4.5). -/

/-- Modelled from the spec: tokens are obtained by splitting on whitespace
(the missing code is `fuzzywuzzy`'s tokenization). -/
def tokenize (s : String) : List String :=
  (s.split Char.isWhitespace).filter fun t => t ≠ ""

/-- Edit distance (insertion 1, deletion 1, substitution 2 — the distance
underlying an edit-distance *ratio*, where a substitution counts as one
deletion plus one insertion), with explicit fuel; `a.length + b.length`
steps always suffice. -/
def levF : ℕ → List Char → List Char → ℕ
  | _, [], bs => bs.length
  | _, a :: as, [] => (a :: as).length
  | 0, a :: as, b :: bs => (a :: as).length + (b :: bs).length
  | fuel + 1, a :: as, b :: bs =>
    if a = b then levF fuel as bs
    else
      min (levF fuel as (b :: bs) + 1)
        (min (levF fuel (a :: as) bs + 1) (levF fuel as bs + 2))

/-- The edit distance of two character lists. -/
def levDist (a b : List Char) : ℕ :=
  levF (a.length + b.length) a b

/-- Modelled from the spec: `fuzz.ratio`, the "direct edit-distance-based
ratio over the full strings" — the matched proportion
`(lensum - distance) / lensum` as an integer percentage (the missing code
is `fuzzywuzzy.fuzz.ratio`; the exact rounding of the percentage is not
specified, the model truncates). -/
def fuzz_ratio (a b : String) : ℕ :=
  let n := a.data.length + b.data.length
  if n = 0 then 100
  else 100 * (n - levDist a.data b.data) / n

/-- Lexicographic insertion sort of a token list. -/
def sortTokens (l : List String) : List String :=
  List.insertionSort (fun a b => a ≤ b) l

/-- Tokens split on whitespace, sorted lexically, rejoined. -/
def token_sort_key (s : String) : String :=
  String.intercalate " " (sortTokens (tokenize s))

/-- Modelled from the spec: `fuzz.token_sort_ratio` — "tokens split on
whitespace, sorted lexically, rejoined, then ratio" (the missing code is
`fuzzywuzzy.fuzz.token_sort_ratio`). -/
def token_sort_ratio (a b : String) : ℕ :=
  fuzz_ratio (token_sort_key a) (token_sort_key b)

/-- Modelled from the spec: `fuzz.token_set_ratio` — "tokens treated as
sets; ratio computed over intersection/union reconstructions": the sorted
token-set intersection alone, and the intersection extended with each
side's sorted remainder, pairwise compared by ratio, best score kept (the
missing code is `fuzzywuzzy.fuzz.token_set_ratio`). -/
def token_set_ratio (a b : String) : ℕ :=
  let ta := (tokenize a).dedup
  let tb := (tokenize b).dedup
  let sect := sortTokens (ta.filter fun t => decide (t ∈ tb))
  let d1 := sortTokens (ta.filter fun t => decide (t ∉ tb))
  let d2 := sortTokens (tb.filter fun t => decide (t ∉ ta))
  let s0 := String.intercalate " " sect
  let s1 := String.intercalate " " (sect ++ d1)
  let s2 := String.intercalate " " (sect ++ d2)
  max (fuzz_ratio s0 s1) (max (fuzz_ratio s0 s2) (fuzz_ratio s1 s2))

/-- The similarity engine's score, as computed inside `find_similar_names`:
the maximum of the three algorithms over the lowercased strings. -/
def score (a b : String) : ℕ :=
  let al := a.toLower
  let bl := b.toLower
  max (fuzz_ratio al bl) (max (token_sort_ratio al bl) (token_set_ratio al bl))

/-- The comparison `sorted(similar_names, key=lambda x: x[1], reverse=True)`
sorts by: the first pair's score is at least the second's. -/
def scoreGE (p q : String × ℕ) : Prop :=
  q.2 ≤ p.2

instance : DecidableRel scoreGE := fun p q =>
  inferInstanceAs (Decidable (q.2 ≤ p.2))

instance : IsTotal (String × ℕ) scoreGE :=
  ⟨fun a b => (Nat.le_total a.2 b.2).symm⟩

instance : IsTrans (String × ℕ) scoreGE :=
  ⟨fun _ _ _ hab hbc => le_trans hbc hab⟩

/-- The per-candidate similarity of `find_similar_names` (the same
max-of-three combination as `score`, over already-lowercased strings). -/
def candidateScore (target_lower name_lower : String) : ℕ :=
  max (fuzz_ratio target_lower name_lower)
    (max (token_sort_ratio target_lower name_lower)
      (token_set_ratio target_lower name_lower))

/-- `find_similar_names`: skip candidates shorter than
`max(3, len(target) // 3)`, skip candidates whose length differs from the
target's by more than the target's length, score the rest with the
max-of-three engine, keep scores at least the threshold, and sort by score
descending (Python's `sorted` is stable with `reverse=True`, modelled by a
stable insertion sort under `scoreGE`). -/
def find_similar_names (target_name : String) (all_names : List String)
    (threshold : ℕ) : List (String × ℕ) :=
  let target_lower := target_name.toLower
  let min_length := max 3 (target_name.length / 3)
  let similar_names := all_names.filterMap fun name =>
    if name.length < min_length then none
    else
      let name_lower := name.toLower
      if target_lower.length <
          ((name_lower.length : ℤ) - (target_lower.length : ℤ)).natAbs then
        none
      else
        let similarity := candidateScore target_lower name_lower
        if threshold ≤ similarity then some (name, similarity) else none
  List.insertionSort scoreGE similar_names

/-- The claim-side reading of the two pre-filters of `find_similar_names`:
candidate length at least `max 3 (len target / 3)`, and length difference
from the target (over the lowercased strings, as in the code) at most the
target's length. -/
def passesFilters (target_name name : String) : Bool :=
  decide (max 3 (target_name.length / 3) ≤ name.length) &&
  decide (((name.toLower.length : ℤ) - (target_name.toLower.length : ℤ)).natAbs
    ≤ target_name.toLower.length)

/-- The claim-side reading of the whole retention test: both pre-filters
pass and the score reaches the threshold. -/
def keptCandidate (target_name : String) (threshold : ℕ) (name : String) :
    Bool :=
  passesFilters target_name name &&
  decide (threshold ≤ candidateScore target_name.toLower name.toLower)

/-! ## Findings analysis (`analyze_findings`) -/

/-- One entry of the `name_variations` list. -/
structure NameVariation where
  name1 : String
  name2 : String
  similarity : ℕ
  places1 : List PlaceInfo
  places2 : List PlaceInfo
deriving DecidableEq, Repr

/-- `name_groups[n]`: the places sharing the exact name `n`, in their
original order (the dict of `analyze_findings` appends in iteration
order, which is the filtered input order). -/
def nameGroup (places : List PlaceInfo) (n : String) : List PlaceInfo :=
  places.filter fun p => decide (p.name = n)

/-- The keys of `name_groups`: the distinct names in first-occurrence
order (Python dict key order). -/
def uniqueNamesOf (places : List PlaceInfo) : List String :=
  dedupByKey id [] (places.map PlaceInfo.name)

/-- The variation loop of `analyze_findings`:
`for i, name1 in enumerate(names): for name2 in names[i+1:]: ...`, a pair
recorded when `fuzz.ratio` of the lowercased names exceeds `80`. -/
def nameVariations (places : List PlaceInfo) (names : List String) :
    List NameVariation :=
  names.enum.flatMap fun p =>
    (names.drop (p.1 + 1)).filterMap fun n2 =>
      let s := fuzz_ratio p.2.toLower n2.toLower
      if 80 < s then
        some { name1 := p.2, name2 := n2, similarity := s,
               places1 := nameGroup places p.2, places2 := nameGroup places n2 }
      else none

/-- The analysis report. -/
structure Analysis where
  total_places : ℕ
  unique_names : ℕ
  multiple_locations : List (String × List PlaceInfo)
  name_variations : List NameVariation
deriving DecidableEq, Repr

/-- `analyze_findings`. -/
def analyze_findings (places : List PlaceInfo) : Analysis :=
  let names := uniqueNamesOf places
  { total_places := places.length
    unique_names := names.length
    multiple_locations := names.filterMap fun n =>
      let group := nameGroup places n
      if 1 < group.length then some (n, group) else none
    name_variations := nameVariations places names }

/-- The claim-side description of the variation pass (spec section 4.6):
walk the unique names in discovery order and compare each with every
subsequent name, keeping the pair when the ratio of the lowercased names
exceeds 80. -/
def variationsSpec (places : List PlaceInfo) : List String → List NameVariation
  | [] => []
  | n1 :: rest =>
    (rest.filterMap fun n2 =>
      let s := fuzz_ratio n1.toLower n2.toLower
      if 80 < s then
        some { name1 := n1, name2 := n2, similarity := s,
               places1 := nameGroup places n1, places2 := nameGroup places n2 }
      else none) ++ variationsSpec places rest

/-! ## Region geometry: proofs -/

lemma gridLoop_start_le (area : ℚ) (mt : ℕ) :
    ∀ fuel g, g ≤ gridLoop area mt fuel g := by
  intro fuel
  induction fuel with
  | zero => intro g; simp [gridLoop]
  | succ n ih =>
    intro g
    by_cases hc : gridCont area mt g
    · simpa [gridLoop, hc] using le_trans (Nat.le_succ g) (ih (g + 1))
    · simp [gridLoop, hc]

lemma gridLoop_spec (area : ℚ) (mt : ℕ) :
    ∀ fuel g, ¬ gridCont area mt (g + fuel) →
      ¬ gridCont area mt (gridLoop area mt fuel g) ∧
      ∀ x, g ≤ x → x < gridLoop area mt fuel g → gridCont area mt x := by
  intro fuel
  induction fuel with
  | zero =>
    intro g h
    refine ⟨by simpa [gridLoop] using h, fun x hgx hx => ?_⟩
    rw [gridLoop] at hx
    omega
  | succ n ih =>
    intro g h
    by_cases hc : gridCont area mt g
    · have h' : ¬ gridCont area mt (g + 1 + n) := by
        have : g + 1 + n = g + (n + 1) := by omega
        rwa [this]
      obtain ⟨h1, h2⟩ := ih (g + 1) h'
      rw [gridLoop, if_pos hc]
      refine ⟨h1, fun x hgx hx => ?_⟩
      rcases Nat.eq_or_lt_of_le hgx with heq | hlt
      · rwa [← heq]
      · exact h2 x hlt hx
    · rw [gridLoop, if_neg hc]
      exact ⟨hc, fun x hgx hx => by omega⟩

lemma not_gridCont_large (area : ℚ) (mt : ℕ) : ¬ gridCont area mt (2 + (mt + 2)) := by
  intro h
  have hlt := h.1
  have : 2 + (mt + 2) ≤ (2 + (mt + 2)) * (2 + (mt + 2)) :=
    Nat.le_mul_of_pos_right _ (by omega)
  omega

lemma two_le_gridSize (area : ℚ) (mt : ℕ) : 2 ≤ gridSize area mt :=
  gridLoop_start_le area mt (mt + 2) 2

/-- The grid size is the least `g ≥ 2` for which the loop condition fails. -/
lemma gridSize_isLeast (area : ℚ) (mt : ℕ) :
    IsLeast {g | 2 ≤ g ∧ ¬ gridCont area mt g} (gridSize area mt) := by
  have hmain := gridLoop_spec area mt (mt + 2) 2 (not_gridCont_large area mt)
  rw [show gridLoop area mt (mt + 2) 2 = gridSize area mt from rfl] at hmain
  obtain ⟨h1, h2⟩ := hmain
  refine ⟨⟨two_le_gridSize area mt, h1⟩, fun y hy => ?_⟩
  by_contra hlt
  exact hy.2 (h2 y hy.1 (by omega))

lemma flatMap_fixed_getElem {α β : Type} :
    ∀ (L : List α) (F : α → List β) (n : ℕ), (∀ a, (F a).length = n) →
      ∀ i j, j < n → (h : i < L.length) →
        (L.flatMap F)[i * n + j]? = (F L[i])[j]? := by
  intro L
  induction L with
  | nil => intro F n hn i j hj h; simp at h
  | cons x xs ih =>
    intro F n hn i j hj h
    rw [List.flatMap_cons]
    cases i with
    | zero =>
      have hjx : j < (F x).length := by rw [hn x]; exact hj
      simpa using (List.getElem?_append_left hjx)
    | succ i =>
      have hge : (F x).length ≤ (i + 1) * n + j := by
        rw [hn x]
        calc n ≤ (i + 1) * n := Nat.le_mul_of_pos_left n (by omega)
        _ ≤ (i + 1) * n + j := Nat.le_add_right _ _
      rw [List.getElem?_append_right hge]
      have hidx : (i + 1) * n + j - (F x).length = i * n + j := by
        rw [hn x]; ring_nf; omega
      rw [hidx]
      have hi : i < xs.length := by simpa using h
      simpa using ih F n hn i j hj hi

lemma split_bbox_pos_case (b : BBox) (mt : ℕ)
    (h : ¬ calculate_bbox_area b ≤ 1) :
    split_bbox_into_tiles b mt =
      (List.range (gridSize (calculate_bbox_area b) mt)).flatMap
        fun i => (List.range (gridSize (calculate_bbox_area b) mt)).map
          fun j => tileAt b (gridSize (calculate_bbox_area b) mt) i j := by
  rw [split_bbox_into_tiles]
  simp [h]

lemma split_bbox_length (b : BBox) (mt : ℕ)
    (h : ¬ calculate_bbox_area b ≤ 1) :
    (split_bbox_into_tiles b mt).length =
      gridSize (calculate_bbox_area b) mt * gridSize (calculate_bbox_area b) mt := by
  rw [split_bbox_pos_case b mt h, List.length_flatMap]
  have : (List.range (gridSize (calculate_bbox_area b) mt)).map
      (List.length ∘ fun i => (List.range (gridSize (calculate_bbox_area b) mt)).map
        fun j => tileAt b (gridSize (calculate_bbox_area b) mt) i j) =
      List.replicate (gridSize (calculate_bbox_area b) mt)
        (gridSize (calculate_bbox_area b) mt) := by
    rw [List.eq_replicate_iff]
    constructor
    · simp
    · intro x hx
      simp only [List.mem_map] at hx
      obtain ⟨i, _, hix⟩ := hx
      simp [← hix]
  rw [this, List.sum_replicate, smul_eq_mul]

/-- Claim C4: for area at most `1.0` the split returns the region alone;
otherwise it returns `g * g` tiles where `g` is the least integer at least
`2` with `max_tiles ≤ g²` or `area / g² ≤ 1.0`, laid out row-major with
the south-to-north index outer and the west-to-east index inner: the tile
at flat position `i * g + j` spans latitudes
`[south + i * latStep, south + (i+1) * latStep]` and longitudes
`[west + j * lonStep, west + (j+1) * lonStep]`. -/
theorem split_bbox_into_tiles_spec (b : BBox) (mt : ℕ) :
    (calculate_bbox_area b ≤ 1 → split_bbox_into_tiles b mt = [b]) ∧
    (1 < calculate_bbox_area b →
      IsLeast {g | 2 ≤ g ∧
          (mt ≤ g * g ∨ calculate_bbox_area b / ((g * g : ℕ) : ℚ) ≤ 1)}
        (gridSize (calculate_bbox_area b) mt) ∧
      (split_bbox_into_tiles b mt).length =
        gridSize (calculate_bbox_area b) mt *
          gridSize (calculate_bbox_area b) mt ∧
      ∀ i j, i < gridSize (calculate_bbox_area b) mt →
        j < gridSize (calculate_bbox_area b) mt →
        (split_bbox_into_tiles b mt)[i * gridSize (calculate_bbox_area b) mt + j]? =
          some (tileAt b (gridSize (calculate_bbox_area b) mt) i j)) := by
  constructor
  · intro h
    rw [split_bbox_into_tiles]
    simp [h]
  · intro h
    have hn : ¬ calculate_bbox_area b ≤ 1 := not_le.mpr h
    refine ⟨?_, split_bbox_length b mt hn, ?_⟩
    · have hset : {g | 2 ≤ g ∧
          (mt ≤ g * g ∨ calculate_bbox_area b / ((g * g : ℕ) : ℚ) ≤ 1)} =
          {g | 2 ≤ g ∧ ¬ gridCont (calculate_bbox_area b) mt g} := by
        ext g
        simp only [Set.mem_setOf_eq, gridCont, not_and_or, not_lt]
      rw [hset]
      exact gridSize_isLeast (calculate_bbox_area b) mt
    · intro i j hi hj
      rw [split_bbox_pos_case b mt hn]
      rw [flatMap_fixed_getElem (List.range (gridSize (calculate_bbox_area b) mt))
        _ (gridSize (calculate_bbox_area b) mt) (fun a => by simp) i j hj
        (by simpa using hi)]
      simp [hi, hj]

/-- Witness for C4 at a concrete region of area 16: the split has
`g * g` tiles. -/
theorem split_bbox_into_tiles_spec_witness :
    (split_bbox_into_tiles ⟨0, 0, 4, 4⟩ 16).length =
      gridSize (calculate_bbox_area ⟨0, 0, 4, 4⟩) 16 *
        gridSize (calculate_bbox_area ⟨0, 0, 4, 4⟩) 16 :=
  ((split_bbox_into_tiles_spec ⟨0, 0, 4, 4⟩ 16).2
    (by norm_num [calculate_bbox_area])).2.1

lemma sum_flatMap_eq {α : Type} (l : List α) (f : α → List ℚ) :
    (l.flatMap f).sum = (l.map fun a => (f a).sum).sum := by
  induction l with
  | nil => simp
  | cons x xs ih => simp [List.flatMap_cons, ih]

lemma tileAt_area (b : BBox) (g i j : ℕ) :
    calculate_bbox_area (tileAt b g i j) =
      ((b.north - b.south) / g) * ((b.east - b.west) / g) := by
  simp only [calculate_bbox_area, tileAt]
  ring

/-- Claim C5: the tile areas sum exactly (over ℚ) to the region area, and
the tile count is `g * g` when splitting happens (`1` otherwise). -/
theorem split_tiles_area_sum (b : BBox) (mt : ℕ)
    (hsn : b.south < b.north) (hwe : b.west < b.east) :
    ((split_bbox_into_tiles b mt).map calculate_bbox_area).sum =
      calculate_bbox_area b ∧
    (1 < calculate_bbox_area b →
      (split_bbox_into_tiles b mt).length =
        gridSize (calculate_bbox_area b) mt *
          gridSize (calculate_bbox_area b) mt) ∧
    (calculate_bbox_area b ≤ 1 → (split_bbox_into_tiles b mt).length = 1) := by
  refine ⟨?_, fun h => split_bbox_length b mt (not_le.mpr h), fun h => ?_⟩
  · by_cases hle : calculate_bbox_area b ≤ 1
    · rw [split_bbox_into_tiles]
      simp [hle]
    · set g := gridSize (calculate_bbox_area b) mt with hg
      have hg2 : 2 ≤ g := two_le_gridSize _ _
      have hgq : ((g : ℕ) : ℚ) ≠ 0 := by
        have : g ≠ 0 := by omega
        exact_mod_cast this
      rw [split_bbox_pos_case b mt hle, List.map_flatMap, sum_flatMap_eq]
      have hinner : ∀ i : ℕ,
          ((List.range g).map fun j => tileAt b g i j).map calculate_bbox_area
            = List.replicate g
              (((b.north - b.south) / g) * ((b.east - b.west) / g)) := by
        intro i
        rw [List.map_map, List.eq_replicate_iff]
        refine ⟨by simp, fun x hx => ?_⟩
        simp only [List.mem_map, Function.comp_apply] at hx
        obtain ⟨j, _, hjx⟩ := hx
        rw [← hjx, tileAt_area]
      have houter : ((List.range g).map fun i =>
          (((List.range g).map fun j => tileAt b g i j).map
            calculate_bbox_area).sum) =
          List.replicate g
            ((g : ℚ) * (((b.north - b.south) / g) * ((b.east - b.west) / g))) := by
        rw [List.eq_replicate_iff]
        refine ⟨by simp, fun x hx => ?_⟩
        simp only [List.mem_map] at hx
        obtain ⟨i, _, hix⟩ := hx
        rw [← hix, hinner i, List.sum_replicate, nsmul_eq_mul]
      rw [houter, List.sum_replicate, nsmul_eq_mul, calculate_bbox_area]
      field_simp
      ring
  · rw [split_bbox_into_tiles]
    simp [h]

/-- Witness for C5 at a concrete region of area 16. -/
theorem split_tiles_area_sum_witness :
    ((split_bbox_into_tiles ⟨0, 0, 4, 4⟩ 16).map calculate_bbox_area).sum =
      calculate_bbox_area ⟨0, 0, 4, 4⟩ :=
  (split_tiles_area_sum ⟨0, 0, 4, 4⟩ 16 (by decide) (by decide)).1

/-! ## Deduplication: proofs -/

lemma dedupByKey_filter {α β : Type} [DecidableEq β] (key : α → β) :
    ∀ (l : List α) (seen : List β) (k : β),
      (dedupByKey key seen l).filter (fun a => decide (key a = k)) =
        if k ∈ seen then [] else (l.filter fun a => decide (key a = k)).take 1 := by
  intro l
  induction l with
  | nil => intro seen k; simp [dedupByKey]
  | cons x xs ih =>
    intro seen k
    rw [dedupByKey]
    by_cases hx : key x ∈ seen
    · rw [if_pos hx, ih]
      by_cases hk : k ∈ seen
      · simp [hk]
      · have hne : ¬ key x = k := fun h => hk (h ▸ hx)
        simp [hk, List.filter_cons, hne]
    · rw [if_neg hx]
      by_cases hk : k ∈ seen
      · have hne : ¬ key x = k := fun h => hx (h ▸ hk)
        rw [List.filter_cons_of_neg (by simpa using hne), ih]
        have hmem : k ∈ key x :: seen := List.mem_cons_of_mem _ hk
        simp [hk, hmem]
      · by_cases hxk : key x = k
        · rw [List.filter_cons_of_pos (by simpa using hxk), ih]
          have hmem : k ∈ key x :: seen := by
            rw [hxk]; exact List.mem_cons_self _ _
          rw [if_pos hmem]
          simp [hk, List.filter_cons, hxk]
        · rw [List.filter_cons_of_neg (by simpa using hxk), ih]
          have hmem : ¬ k ∈ key x :: seen := by
            simp only [List.mem_cons]
            rintro (h | h)
            · exact hxk h.symm
            · exact hk h
          rw [if_neg hmem]
          simp [hk, List.filter_cons, hxk]

lemma dedupByKey_sublist {α β : Type} [DecidableEq β] (key : α → β) :
    ∀ (l : List α) (seen : List β), List.Sublist (dedupByKey key seen l) l := by
  intro l
  induction l with
  | nil => intro seen; simp [dedupByKey]
  | cons x xs ih =>
    intro seen
    rw [dedupByKey]
    by_cases hx : key x ∈ seen
    · rw [if_pos hx]
      exact (ih seen).trans (List.sublist_cons_self x xs)
    · rw [if_neg hx]
      exact (ih (key x :: seen)).cons₂ x

lemma dedupByKey_keys {α β : Type} [DecidableEq β] (key : α → β) :
    ∀ (l : List α) (seen : List β),
      ((dedupByKey key seen l).map key).Nodup ∧
      ∀ a ∈ dedupByKey key seen l, key a ∉ seen := by
  intro l
  induction l with
  | nil => intro seen; simp [dedupByKey]
  | cons x xs ih =>
    intro seen
    rw [dedupByKey]
    by_cases hx : key x ∈ seen
    · rw [if_pos hx]
      exact ih seen
    · rw [if_neg hx]
      obtain ⟨h1, h2⟩ := ih (key x :: seen)
      refine ⟨?_, fun a ha => ?_⟩
      · rw [List.map_cons, List.nodup_cons]
        exact ⟨fun hmem => by
          obtain ⟨a, ha, hka⟩ := List.mem_map.mp hmem
          exact (h2 a ha) (by rw [hka]; exact List.mem_cons_self _ _), h1⟩
      · rcases List.mem_cons.mp ha with rfl | ha
        · exact hx
        · exact fun hmem => h2 a ha (List.mem_cons_of_mem _ hmem)

lemma dedupByKey_of_nodup {α β : Type} [DecidableEq β] (key : α → β) :
    ∀ (l : List α) (seen : List β), ((l.map key).Nodup) →
      (∀ a ∈ l, key a ∉ seen) → dedupByKey key seen l = l := by
  intro l
  induction l with
  | nil => intro seen _ _; simp [dedupByKey]
  | cons x xs ih =>
    intro seen hnd hdisj
    rw [dedupByKey, if_neg (hdisj x (List.mem_cons_self _ _))]
    rw [List.map_cons, List.nodup_cons] at hnd
    congr 1
    refine ih (key x :: seen) hnd.2 fun a ha => ?_
    intro hmem
    rcases List.mem_cons.mp hmem with heq | hmem
    · exact hnd.1 (heq ▸ List.mem_map_of_mem key ha)
    · exact hdisj a (List.mem_cons_of_mem _ ha) hmem

lemma dedupByKey_idem {α β : Type} [DecidableEq β] (key : α → β) (l : List α) :
    dedupByKey key [] (dedupByKey key [] l) = dedupByKey key [] l :=
  dedupByKey_of_nodup key _ [] (dedupByKey_keys key l []).1 (by simp)

lemma filter_of_implies {α : Type} {p q : α → Bool}
    (hpq : ∀ a, p a = true → q a = true) :
    ∀ l : List α, l.filter p = (l.filter q).filter p := by
  intro l
  induction l with
  | nil => simp
  | cons x xs ih =>
    by_cases hp : p x = true
    · rw [List.filter_cons_of_pos hp, List.filter_cons_of_pos (hpq x hp),
        List.filter_cons_of_pos hp, ih]
    · rw [List.filter_cons_of_neg (by simpa using hp)]
      by_cases hq : q x = true
      · rw [List.filter_cons_of_pos hq, List.filter_cons_of_neg (by simpa using hp), ih]
      · rw [List.filter_cons_of_neg (by simpa using hq), ih]

/-- The pair predicate `(type, id) = (t, i)` implies the key predicate on
the concatenated key. -/
lemma pair_implies_key (t : String) (i : ℤ) :
    ∀ e : RawElement, decide (e.type = t ∧ e.id = i) = true →
      decide (elemKey e = t ++ toString i) = true := by
  intro e h
  rw [decide_eq_true_iff] at h ⊢
  rw [elemKey, h.1, h.2]

/-- Amended claim C9: deduplication is idempotent; for any `(type, id)`
pair at most one record survives, namely the first occurrence; the output
is a sublist of the input (original relative order); and when the
*concatenated* keys are pairwise distinct every record is retained
(distinct `(type, id)` pairs alone do not suffice — see the
counterexample). -/
theorem dedup_elements_spec (l : List RawElement) :
    dedup_elements (dedup_elements l) = dedup_elements l ∧
    (∀ (t : String) (i : ℤ),
      List.Sublist
        ((dedup_elements l).filter fun e => decide (e.type = t ∧ e.id = i))
        ((l.filter fun e => decide (e.type = t ∧ e.id = i)).take 1)) ∧
    List.Sublist (dedup_elements l) l ∧
    ((l.map elemKey).Nodup → dedup_elements l = l) := by
  refine ⟨dedupByKey_idem elemKey l, fun t i => ?_, dedupByKey_sublist elemKey l [],
    fun h => dedupByKey_of_nodup elemKey l [] h (by simp)⟩
  rw [filter_of_implies (pair_implies_key t i) (dedup_elements l)]
  rw [show (dedup_elements l).filter (fun e => decide (elemKey e = t ++ toString i)) =
      (l.filter fun e => decide (elemKey e = t ++ toString i)).take 1 by
    simpa using dedupByKey_filter elemKey l [] (t ++ toString i)]
  rcases hK : l.filter (fun e => decide (elemKey e = t ++ toString i)) with _ | ⟨x, rest⟩
  · simp
  · rw [List.take_succ_cons, List.take_zero]
    by_cases hpx : decide (x.type = t ∧ x.id = i) = true
    · rw [List.filter_cons, if_pos hpx, List.filter_nil]
      obtain ⟨l₁, l₂, hsplit, hl₁, _, _⟩ := List.filter_eq_cons_iff.mp hK
      have hfl₁ : l₁.filter (fun e => decide (e.type = t ∧ e.id = i)) = [] := by
        rw [List.filter_eq_nil_iff]
        exact fun a ha hpa => hl₁ a ha (pair_implies_key t i a hpa)
      rw [hsplit, List.filter_append, hfl₁, List.nil_append, List.filter_cons,
        if_pos hpx, List.take_succ_cons, List.take_zero]
    · rw [List.filter_cons, if_neg hpx, List.filter_nil]
      exact List.nil_sublist _

/-- Witness for C9: idempotence at a concrete two-element input. -/
theorem dedup_elements_spec_witness :
    dedup_elements (dedup_elements
        [⟨"node", 1, none, none, none, []⟩, ⟨"node", 1, none, none, none, []⟩]) =
      dedup_elements
        [⟨"node", 1, none, none, none, []⟩, ⟨"node", 1, none, none, none, []⟩] :=
  (dedup_elements_spec
    [⟨"node", 1, none, none, none, []⟩, ⟨"node", 1, none, none, none, []⟩]).1

/-- Counterexample to C9 as stated: the records `("node1", 1)` and
`("node", 11)` have distinct `(type, id)` pairs but the same concatenated
key `"node11"`, so the second is dropped — "records with distinct
`(type, id)` keys are all retained" fails on the code, whose key is the
string concatenation of the type and the id. -/
theorem dedup_elements_cex :
    dedup_elements [⟨"node1", 1, none, none, none, []⟩,
        ⟨"node", 11, none, none, none, []⟩] =
      [⟨"node1", 1, none, none, none, []⟩] ∧
    (RawElement.type ⟨"node1", 1, none, none, none, []⟩,
        RawElement.id ⟨"node1", 1, none, none, none, []⟩) ≠
      (RawElement.type ⟨"node", 11, none, none, none, []⟩,
        RawElement.id ⟨"node", 11, none, none, none, []⟩) := by
  constructor
  · decide
  · decide

/-! ## Record normalization: proofs -/

lemma placeCategory_unknown (tags : List (String × String))
    (h : ∀ kv ∈ tags, kv.1 ∉ categoryKeys) :
    placeCategory tags = ("unknown", "unknown") := by
  rw [placeCategory]
  have hfind : tags.find? (fun kv => categoryKeys.contains kv.1) = none := by
    rw [List.find?_eq_none]
    intro kv hkv hc
    exact h kv hkv (List.elem_iff.mp hc)
  rw [hfind]

lemma placeCategory_first (l₁ : List (String × String)) (k v : String)
    (l₂ : List (String × String)) (hk : k ∈ categoryKeys)
    (h : ∀ kv ∈ l₁, kv.1 ∉ categoryKeys) :
    placeCategory (l₁ ++ (k, v) :: l₂) = (k, v) := by
  rw [placeCategory]
  have hfind : (l₁ ++ (k, v) :: l₂).find?
      (fun kv => categoryKeys.contains kv.1) = some (k, v) := by
    induction l₁ with
    | nil =>
      simp only [List.nil_append]
      exact List.find?_cons_of_pos _ (by simpa using List.elem_iff.mpr hk)
    | cons x xs ih =>
      rw [List.cons_append,
        List.find?_cons_of_neg _ (by
          simpa using fun hc => h x (List.mem_cons_self _ _) (List.elem_iff.mp hc))]
      exact ih fun kv hkv => h kv (List.mem_cons_of_mem _ hkv)
  rw [hfind]

lemma elementCoords_iff (e : RawElement) (la lo : Option ℚ)
    (h : elementCoords e = some (la, lo)) : la.isSome ↔ lo.isSome := by
  rw [elementCoords] at h
  by_cases ht : e.type = "node"
  · rw [if_pos ht] at h
    rcases hla : e.lat? with _ | x <;> rcases hlo : e.lon? with _ | y <;>
        rw [hla, hlo] at h
    · simp at h
    · simp at h
    · simp at h
    · simp only [Option.some.injEq, Prod.mk.injEq] at h
      rw [← h.1, ← h.2]
      simp
  · rw [if_neg ht] at h
    rcases hc : e.center with _ | c <;> rw [hc] at h <;>
        simp only [Option.some.injEq, Prod.mk.injEq] at h <;>
        rw [← h.1, ← h.2] <;> simp

lemma extractElement_some_some (e : RawElement) (p : PlaceInfo)
    (h : extractElement e = some (some p)) :
    p.tags = e.tags ∧ p.category = (placeCategory e.tags).1 ∧
    p.subcategory = (placeCategory e.tags).2 ∧ (p.lat.isSome ↔ p.lon.isSome) := by
  rw [extractElement] at h
  rcases hname : e.tags.lookup "name" with _ | nm <;> rw [hname] at h
  · simp at h
  · rcases hc : elementCoords e with _ | lalo <;> rw [hc] at h
    · simp at h
    · obtain ⟨la, lo⟩ := lalo
      simp only [Option.some.injEq] at h
      subst h
      exact ⟨rfl, rfl, rfl, elementCoords_iff e la lo hc⟩

lemma extract_place_info_mem :
    ∀ (l : List RawElement) (ps : List PlaceInfo) (p : PlaceInfo),
      extract_place_info l = some ps → p ∈ ps →
      ∃ e ∈ l, extractElement e = some (some p) := by
  intro l
  induction l with
  | nil =>
    intro ps p hl hp
    rw [extract_place_info] at hl
    simp only [Option.some.injEq] at hl
    subst hl
    simp at hp
  | cons e es ih =>
    intro ps p hl hp
    rw [extract_place_info] at hl
    rcases he : extractElement e with _ | p? <;> rw [he] at hl
    · simp at hl
    · rcases hes : extract_place_info es with _ | rest <;> rw [hes] at hl
      · simp at hl
      · simp only [Option.some.injEq] at hl
        subst hl
        rcases p? with _ | q
        · obtain ⟨e', he', hq⟩ := ih rest p hes hp
          exact ⟨e', List.mem_cons_of_mem _ he', hq⟩
        · rcases List.mem_cons.mp hp with rfl | hp'
          · exact ⟨e, List.mem_cons_self _ _, he⟩
          · obtain ⟨e', he', hq⟩ := ih rest p hes hp'
            exact ⟨e', List.mem_cons_of_mem _ he', hq⟩

/-- Amended claim C1: the category scan iterates the attribute *map* in
insertion order, not the fixed priority list: the first binding (in
insertion order) whose key lies in
`{amenity, shop, leisure, tourism, healthcare, education}` provides
category and subcategory, and with no such binding the result is
unknown/unknown. In particular, for a map containing both `shop` and
`amenity`, whichever was inserted first wins — not necessarily
`amenity`. -/
theorem extract_category_first_in_tags (l : List RawElement)
    (ps : List PlaceInfo) (p : PlaceInfo)
    (hl : extract_place_info l = some ps) (hp : p ∈ ps) :
    ((∀ kv ∈ p.tags, kv.1 ∉ categoryKeys) →
      p.category = "unknown" ∧ p.subcategory = "unknown") ∧
    ∀ (l₁ : List (String × String)) (k v : String)
      (l₂ : List (String × String)),
      p.tags = l₁ ++ (k, v) :: l₂ → k ∈ categoryKeys →
      (∀ kv ∈ l₁, kv.1 ∉ categoryKeys) →
      p.category = k ∧ p.subcategory = v := by
  obtain ⟨e, _, hq⟩ := extract_place_info_mem l ps p hl hp
  obtain ⟨htags, hcat, hsub, _⟩ := extractElement_some_some e p hq
  constructor
  · intro h
    rw [htags] at h
    rw [hcat, hsub, placeCategory_unknown e.tags h]
    exact ⟨rfl, rfl⟩
  · intro l₁ k v l₂ hsplit hk h
    rw [htags] at hsplit
    rw [hcat, hsub, hsplit, placeCategory_first l₁ k v l₂ hk h]
    exact ⟨rfl, rfl⟩

/-- Witness for the amended C1 at a concrete record whose map lists
`shop` before `amenity`: the extracted category is `shop`. -/
theorem extract_category_first_in_tags_witness :
    PlaceInfo.category
        ⟨"X", "way", 7, none, none, "shop", "supermarket", none, none, none,
          none, none, none,
          [("name", "X"), ("shop", "supermarket"), ("amenity", "restaurant")]⟩
      = "shop" ∧
    PlaceInfo.subcategory
        ⟨"X", "way", 7, none, none, "shop", "supermarket", none, none, none,
          none, none, none,
          [("name", "X"), ("shop", "supermarket"), ("amenity", "restaurant")]⟩
      = "supermarket" :=
  (extract_category_first_in_tags
    [⟨"way", 7, none, none, none,
      [("name", "X"), ("shop", "supermarket"), ("amenity", "restaurant")]⟩]
    [⟨"X", "way", 7, none, none, "shop", "supermarket", none, none, none,
      none, none, none,
      [("name", "X"), ("shop", "supermarket"), ("amenity", "restaurant")]⟩]
    ⟨"X", "way", 7, none, none, "shop", "supermarket", none, none, none,
      none, none, none,
      [("name", "X"), ("shop", "supermarket"), ("amenity", "restaurant")]⟩
    (by decide) (by decide)).2
    [("name", "X")] "shop" "supermarket" [("amenity", "restaurant")]
    (by decide) (by decide) (by decide)

/-- Counterexample to C1 as stated: with the attribute map inserted as
`name, shop, amenity`, the extracted category is `shop`, not `amenity` —
the code iterates the map, not the priority list. -/
theorem extract_category_cex :
    (extract_place_info [⟨"way", 7, none, none, none,
        [("name", "X"), ("shop", "supermarket"), ("amenity", "restaurant")]⟩]).map
        (fun ps => ps.map PlaceInfo.category) = some ["shop"] ∧
    ("shop" : String) ≠ "amenity" := by
  exact ⟨by decide, by decide⟩

lemma extractElement_none_of_missing (e : RawElement) (ht : e.type = "node")
    (hn : (e.tags.lookup "name").isSome)
    (hm : e.lat?.isNone ∨ e.lon?.isNone) : extractElement e = none := by
  rcases hname : e.tags.lookup "name" with _ | nm
  · rw [hname] at hn; simp at hn
  · have hc : elementCoords e = none := by
      rw [elementCoords, if_pos ht]
      rcases hla : e.lat? with _ | x <;> rcases hlo : e.lon? with _ | y <;>
          try rfl
      rw [hla, hlo] at hm
      simp at hm
    rw [extractElement, hname, hc]

lemma extract_place_info_none_of_mem :
    ∀ (l : List RawElement) (e : RawElement), e ∈ l → extractElement e = none →
      extract_place_info l = none := by
  intro l
  induction l with
  | nil => intro e he _; simp at he
  | cons x xs ih =>
    intro e he hnone
    rcases List.mem_cons.mp he with rfl | he'
    · rw [extract_place_info, hnone]
    · rw [extract_place_info, ih e he' hnone]
      rcases extractElement x with _ | p? <;> rfl

lemma extractElement_ne_none (e : RawElement)
    (h : e.type = "node" → (e.tags.lookup "name").isSome →
      e.lat?.isSome ∧ e.lon?.isSome) :
    extractElement e ≠ none := by
  intro heq
  rw [extractElement] at heq
  rcases hname : e.tags.lookup "name" with _ | nm <;> rw [hname] at heq
  · simp at heq
  · rcases hc : elementCoords e with _ | lalo <;> rw [hc] at heq
    · rw [elementCoords] at hc
      by_cases ht : e.type = "node"
      · rw [if_pos ht] at hc
        obtain ⟨h1, h2⟩ := h ht (by rw [hname]; simp)
        rcases hla : e.lat? with _ | x
        · rw [hla] at h1; simp at h1
        · rcases hlo : e.lon? with _ | y
          · rw [hlo] at h2; simp at h2
          · rw [hla, hlo] at hc; simp at hc
      · rw [if_neg ht] at hc
        rcases hcen : e.center with _ | c <;> rw [hcen] at hc <;> simp at hc
    · obtain ⟨la, lo⟩ := lalo
      simp at heq

lemma extract_place_info_isSome :
    ∀ l : List RawElement, (∀ e ∈ l, extractElement e ≠ none) →
      ∃ ps, extract_place_info l = some ps := by
  intro l
  induction l with
  | nil => intro _; exact ⟨[], rfl⟩
  | cons e es ih =>
    intro h
    obtain ⟨rest, hrest⟩ := ih fun x hx => h x (List.mem_cons_of_mem _ hx)
    rcases he : extractElement e with _ | p?
    · exact absurd he (h e (List.mem_cons_self _ _))
    · rcases p? with _ | p
      · exact ⟨rest, by rw [extract_place_info, he, hrest]⟩
      · exact ⟨p :: rest, by rw [extract_place_info, he, hrest]⟩

/-- Claim C10: the normalizer reads a node record's `lat`/`lon`
unconditionally, so a named node record lacking either coordinate makes
the run undefined (`none`); under the precondition that every named node
record carries both, normalization is total and every output record has
`lat` and `lon` both set or both null. -/
theorem extract_place_info_node_partiality (l : List RawElement) :
    (∀ e ∈ l, e.type = "node" → (e.tags.lookup "name").isSome →
      (e.lat?.isNone ∨ e.lon?.isNone) → extract_place_info l = none) ∧
    ((∀ e ∈ l, e.type = "node" → (e.tags.lookup "name").isSome →
        e.lat?.isSome ∧ e.lon?.isSome) →
      ∃ ps, extract_place_info l = some ps ∧
        ∀ p ∈ ps, (p.lat.isSome ↔ p.lon.isSome)) := by
  constructor
  · intro e he ht hn hm
    exact extract_place_info_none_of_mem l e he
      (extractElement_none_of_missing e ht hn hm)
  · intro h
    obtain ⟨ps, hps⟩ := extract_place_info_isSome l
      fun e he => extractElement_ne_none e (h e he)
    refine ⟨ps, hps, fun p hp => ?_⟩
    obtain ⟨e, _, hq⟩ := extract_place_info_mem l ps p hps hp
    exact (extractElement_some_some e p hq).2.2.2

/-- Witness for C10: a named node with a missing `lon` makes the run
undefined, and the precondition makes the Lotus Mart run total. -/
theorem extract_place_info_node_partiality_witness :
    extract_place_info [⟨"node", 5, some 1, none, none, [("name", "N")]⟩]
      = none ∧
    ∃ ps, extract_place_info [lotusElem] = some ps ∧
      ∀ p ∈ ps, (p.lat.isSome ↔ p.lon.isSome) :=
  ⟨(extract_place_info_node_partiality
      [⟨"node", 5, some 1, none, none, [("name", "N")]⟩]).1
      ⟨"node", 5, some 1, none, none, [("name", "N")]⟩
      (by decide) (by decide) (by decide) (by decide),
    (extract_place_info_node_partiality [lotusElem]).2 (by decide)⟩

/-! ## Fetch orchestration: proofs -/

lemma single_query_path (q : BBox → Option (List RawElement)) (bbox : BBox)
    (h : calculate_bbox_area bbox ≤ 1) :
    query_overpass_with_chunking q bbox =
      (q bbox).map fun es => { elements := es, generator := none } := by
  simp only [query_overpass_with_chunking]
  rw [if_pos h]

lemma chunked_query_path (q : BBox → Option (List RawElement)) (bbox : BBox)
    (h : ¬ calculate_bbox_area bbox ≤ 1) :
    query_overpass_with_chunking q bbox =
      some (OverpassResult.mk
        (dedup_elements
          ((split_bbox_into_tiles bbox 16).flatMap fun t => (q t).getD []))
        (some "place_detective_chunked")) := by
  simp only [query_overpass_with_chunking]
  rw [if_neg h]

/-- Amended claim C3: failure is distinguishable only on the single-query
path. For area at most 1 a failed query propagates as `none` while a
successful response maps to `some`; for area above 1 the chunked path
always returns a successful result object, and when every tile fails the
result equals the one where every tile succeeded with zero elements (an
empty-but-successful value, not a distinguishable failure). -/
theorem chunking_failure_amended (q : BBox → Option (List RawElement))
    (bbox : BBox) :
    (calculate_bbox_area bbox ≤ 1 → q bbox = none →
      query_overpass_with_chunking q bbox = none) ∧
    (calculate_bbox_area bbox ≤ 1 → ∀ es, q bbox = some es →
      query_overpass_with_chunking q bbox =
        some { elements := es, generator := none }) ∧
    (1 < calculate_bbox_area bbox →
      (query_overpass_with_chunking q bbox).isSome = true ∧
      ((∀ t, q t = none) →
        query_overpass_with_chunking q bbox =
          query_overpass_with_chunking
            (fun _ => some ([] : List RawElement)) bbox)) := by
  refine ⟨fun h hq => ?_, fun h es hq => ?_, fun h => ⟨?_, fun hall => ?_⟩⟩
  · rw [single_query_path q bbox h, hq]
    try rfl
  · rw [single_query_path q bbox h, hq]
    try rfl
  · rw [chunked_query_path q bbox (not_le.mpr h)]
    try rfl
  · rw [chunked_query_path q bbox (not_le.mpr h),
      chunked_query_path _ bbox (not_le.mpr h)]
    have hq0 : ∀ t, (q t).getD [] = ([] : List RawElement) := fun t => by
      rw [hall t]
      try rfl
    simp only [hq0, Option.getD_some]

/-- Witness for the amended C3 at a region of area 16 with every tile
failing. -/
theorem chunking_failure_amended_witness :
    (query_overpass_with_chunking (fun _ => none) ⟨0, 0, 4, 4⟩).isSome = true ∧
    query_overpass_with_chunking (fun _ => none) ⟨0, 0, 4, 4⟩ =
      query_overpass_with_chunking
        (fun _ => some ([] : List RawElement)) ⟨0, 0, 4, 4⟩ :=
  have h := (chunking_failure_amended (fun _ => none) ⟨0, 0, 4, 4⟩).2.2
    (by norm_num [calculate_bbox_area])
  ⟨h.1, h.2 fun t => rfl⟩

/-- Counterexample to C3 as stated: for the region `(0,0,4,4)` of area 16
(above 1) with every tile failing, the orchestrator returns a *successful*
result equal to the one where every tile succeeded with zero elements —
the caller cannot tell "nothing matched" from "could not reach the
source" on the chunked path. -/
theorem chunking_all_failed_cex :
    1 < calculate_bbox_area ⟨0, 0, 4, 4⟩ ∧
    query_overpass_with_chunking (fun _ => none) ⟨0, 0, 4, 4⟩ =
      query_overpass_with_chunking
        (fun _ => some ([] : List RawElement)) ⟨0, 0, 4, 4⟩ ∧
    (query_overpass_with_chunking (fun _ => none) ⟨0, 0, 4, 4⟩).isSome
      = true := by
  have h : ¬ calculate_bbox_area ⟨0, 0, 4, 4⟩ ≤ 1 := by
    norm_num [calculate_bbox_area]
  refine ⟨by norm_num [calculate_bbox_area], ?_, ?_⟩
  · rw [chunked_query_path _ _ h, chunked_query_path _ _ h]
    simp only [Option.getD_none, Option.getD_some]
  · rw [chunked_query_path _ _ h]
    try rfl

/-- Amended claim C2: the Bangkok region has area `0.56 ≤ 1`, so the
fetch takes the single-query path — which returns the response
*unchanged*, with no deduplication (deduplication runs only on the
chunked path) — and the duplicated raw record therefore normalizes to
exactly *two* identical "Lotus Mart" place records, not one. -/
theorem pipeline_duplicate_amended (q : BBox → Option (List RawElement))
    (hq : q bangkokBBox = some [lotusElem, lotusElem]) :
    calculate_bbox_area bangkokBBox ≤ 1 ∧
    pipeline_places q bangkokBBox = some [lotusPlace, lotusPlace] ∧
    ((pipeline_places q bangkokBBox).map fun ps =>
      (ps.filter fun p => decide (p.name = "Lotus Mart")).length) = some 2 := by
  have harea : calculate_bbox_area bangkokBBox ≤ 1 := by
    norm_num [calculate_bbox_area, bangkokBBox]
  have hchunk : query_overpass_with_chunking q bangkokBBox =
      some { elements := [lotusElem, lotusElem], generator := none } := by
    rw [single_query_path q bangkokBBox harea, hq]
    rfl
  have hpipe : pipeline_places q bangkokBBox = some [lotusPlace, lotusPlace] := by
    rw [pipeline_places, hchunk]
    rfl
  refine ⟨harea, hpipe, ?_⟩
  rw [hpipe]
  rfl

/-- Witness for the amended C2 at the constant service returning the
duplicated record. -/
theorem pipeline_duplicate_amended_witness :
    calculate_bbox_area bangkokBBox ≤ 1 ∧
    pipeline_places (fun _ => some [lotusElem, lotusElem]) bangkokBBox =
      some [lotusPlace, lotusPlace] ∧
    ((pipeline_places (fun _ => some [lotusElem, lotusElem])
        bangkokBBox).map fun ps =>
      (ps.filter fun p => decide (p.name = "Lotus Mart")).length) = some 2 :=
  pipeline_duplicate_amended (fun _ => some [lotusElem, lotusElem]) rfl

/-- Counterexample to C2 as stated: on the single-query path the
duplicated raw record survives — the end-to-end run yields two
"Lotus Mart" place records, not exactly one. -/
theorem pipeline_duplicate_cex :
    calculate_bbox_area bangkokBBox ≤ 1 ∧
    ((pipeline_places (fun _ => some [lotusElem, lotusElem])
        bangkokBBox).map fun ps =>
      (ps.filter fun p => decide (p.name = "Lotus Mart")).length) = some 2 ∧
    (some 2 : Option ℕ) ≠ some 1 := by
  have harea : calculate_bbox_area bangkokBBox ≤ 1 := by
    norm_num [calculate_bbox_area, bangkokBBox]
  have hchunk : query_overpass_with_chunking
      (fun _ => some [lotusElem, lotusElem]) bangkokBBox =
      some { elements := [lotusElem, lotusElem], generator := none } := by
    rw [single_query_path _ bangkokBBox harea]
    rfl
  refine ⟨harea, ?_, by decide⟩
  rw [pipeline_places, hchunk]
  rfl

/-! ## Similarity engine: proofs -/

lemma levF_symm : ∀ (n : ℕ) (a b : List Char), levF n a b = levF n b a := by
  intro n
  induction n with
  | zero =>
    intro a b
    rcases a with _ | ⟨x, as⟩ <;> rcases b with _ | ⟨y, bs⟩ <;>
      simp [levF] <;> omega
  | succ n ih =>
    intro a b
    rcases a with _ | ⟨x, as⟩ <;> rcases b with _ | ⟨y, bs⟩
    · rfl
    · simp [levF]
    · simp [levF]
    · by_cases hxy : x = y
      · subst hxy
        simp [levF, ih]
      · have hyx : ¬ y = x := fun h => hxy h.symm
        simp only [levF, if_neg hxy, if_neg hyx]
        rw [ih as (y :: bs), ih (x :: as) bs, ih as bs]
        omega

lemma levF_self : ∀ (l : List Char) (n : ℕ), l.length ≤ n → levF n l l = 0 := by
  intro l
  induction l with
  | nil => intro n _; cases n <;> rfl
  | cons x xs ih =>
    intro n hn
    cases n with
    | zero => simp at hn
    | succ m =>
      have : levF (m + 1) (x :: xs) (x :: xs) = levF m xs xs := by
        simp [levF]
      rw [this]
      exact ih m (by simpa using hn)

lemma levDist_symm (a b : List Char) : levDist a b = levDist b a := by
  rw [levDist, levDist, Nat.add_comm, levF_symm]

lemma levDist_self (a : List Char) : levDist a a = 0 :=
  levF_self a _ (by omega)

lemma fuzz_ratio_symm (a b : String) : fuzz_ratio a b = fuzz_ratio b a := by
  rw [fuzz_ratio, fuzz_ratio, levDist_symm,
    Nat.add_comm a.data.length b.data.length]

lemma fuzz_ratio_self (a : String) : fuzz_ratio a a = 100 := by
  rw [fuzz_ratio]
  rcases Nat.eq_zero_or_pos (a.data.length + a.data.length) with h | h
  · rw [if_pos h]
  · rw [if_neg (by omega), levDist_self, Nat.sub_zero,
      Nat.mul_div_cancel 100 h]

lemma fuzz_ratio_le_100 (a b : String) : fuzz_ratio a b ≤ 100 := by
  rw [fuzz_ratio]
  by_cases h : a.data.length + b.data.length = 0
  · rw [if_pos h]
  · rw [if_neg h]
    calc 100 * (a.data.length + b.data.length - levDist a.data b.data) /
          (a.data.length + b.data.length)
        ≤ 100 * (a.data.length + b.data.length) /
          (a.data.length + b.data.length) :=
          Nat.div_le_div_right (Nat.mul_le_mul_left 100 (Nat.sub_le _ _))
      _ = 100 := Nat.mul_div_cancel 100 (by omega)

lemma token_sort_ratio_symm (a b : String) :
    token_sort_ratio a b = token_sort_ratio b a :=
  fuzz_ratio_symm _ _

lemma token_sort_ratio_le_100 (a b : String) : token_sort_ratio a b ≤ 100 :=
  fuzz_ratio_le_100 _ _

lemma sortTokens_eq_of_perm (l₁ l₂ : List String) (h : l₁.Perm l₂) :
    sortTokens l₁ = sortTokens l₂ :=
  List.eq_of_perm_of_sorted
    ((List.perm_insertionSort _ l₁).trans
      (h.trans (List.perm_insertionSort _ l₂).symm))
    (List.sorted_insertionSort _ l₁) (List.sorted_insertionSort _ l₂)

lemma filter_mem_perm (ta tb : List String) (ha : ta.Nodup) (hb : tb.Nodup) :
    (ta.filter fun t => decide (t ∈ tb)).Perm
      (tb.filter fun t => decide (t ∈ ta)) := by
  rw [List.perm_ext_iff_of_nodup (ha.filter _) (hb.filter _)]
  intro x
  simp only [List.mem_filter, decide_eq_true_eq]
  exact ⟨fun ⟨h1, h2⟩ => ⟨h2, h1⟩, fun ⟨h1, h2⟩ => ⟨h2, h1⟩⟩

lemma token_set_ratio_symm (a b : String) :
    token_set_ratio a b = token_set_ratio b a := by
  simp only [token_set_ratio]
  rw [sortTokens_eq_of_perm _ _
    (filter_mem_perm (tokenize a).dedup (tokenize b).dedup
      (List.nodup_dedup _) (List.nodup_dedup _))]
  rw [fuzz_ratio_symm
    (String.intercalate " "
      (sortTokens ((tokenize b).dedup.filter fun t =>
        decide (t ∈ (tokenize a).dedup)) ++
       sortTokens ((tokenize a).dedup.filter fun t =>
        decide (t ∉ (tokenize b).dedup))))
    (String.intercalate " "
      (sortTokens ((tokenize b).dedup.filter fun t =>
        decide (t ∈ (tokenize a).dedup)) ++
       sortTokens ((tokenize b).dedup.filter fun t =>
        decide (t ∉ (tokenize a).dedup))))]
  omega

lemma token_set_ratio_le_100 (a b : String) : token_set_ratio a b ≤ 100 := by
  simp only [token_set_ratio]
  exact max_le (fuzz_ratio_le_100 _ _)
    (max_le (fuzz_ratio_le_100 _ _) (fuzz_ratio_le_100 _ _))

/-- Claim C6: the engine's score (maximum of the edit-distance ratio, the
token-sort ratio and the token-set ratio over the lowercased strings) is
100 on any nonempty string paired with itself, and is symmetric. -/
theorem score_self_and_symm :
    (∀ a : String, a ≠ "" → score a a = 100) ∧
    ∀ a b : String, score a b = score b a := by
  constructor
  · intro a _
    simp only [score]
    rw [fuzz_ratio_self]
    rw [Nat.max_eq_left
      (max_le (token_sort_ratio_le_100 _ _) (token_set_ratio_le_100 _ _))]
  · intro a b
    simp only [score]
    rw [fuzz_ratio_symm, token_sort_ratio_symm, token_set_ratio_symm]

/-- Witness for C6: the score of "ab" with itself is 100. -/
theorem score_self_and_symm_witness :
    ("ab" : String) ≠ "" ∧ score "ab" "ab" = 100 :=
  ⟨by decide, score_self_and_symm.1 "ab" (by decide)⟩

/-! ## `find_similar_names`: proofs -/

lemma filterMap_eq_map_filter {α β : Type} (p : α → Bool) (g : α → β)
    (l : List α) :
    (l.filterMap fun a => if p a then some (g a) else none) =
      (l.filter p).map g := by
  induction l with
  | nil => rfl
  | cons x xs ih =>
    by_cases hp : p x <;>
      simp [List.filterMap_cons, List.filter_cons, hp, ih]

lemma find_candidate_eq (t : String) (θ : ℕ) (name : String) :
    (if name.length < max 3 (t.length / 3) then none
     else if t.toLower.length <
         ((name.toLower.length : ℤ) - (t.toLower.length : ℤ)).natAbs then
       none
     else if θ ≤ candidateScore t.toLower name.toLower then
       some (name, candidateScore t.toLower name.toLower)
     else none) =
    (if keptCandidate t θ name then
      some (name, candidateScore t.toLower name.toLower)
     else none) := by
  simp only [keptCandidate, passesFilters, Bool.and_eq_true, decide_eq_true_eq]
  by_cases h1 : name.length < max 3 (t.length / 3)
  · rw [if_pos h1, if_neg]
    intro hcontra
    omega
  · rw [if_neg h1]
    by_cases h2 : t.toLower.length <
        ((name.toLower.length : ℤ) - (t.toLower.length : ℤ)).natAbs
    · rw [if_pos h2, if_neg]
      intro hcontra
      omega
    · rw [if_neg h2]
      by_cases h3 : θ ≤ candidateScore t.toLower name.toLower
      · rw [if_pos h3, if_pos (by omega)]
      · rw [if_neg h3, if_neg (by omega)]

lemma find_similar_names_eq (t : String) (ns : List String) (θ : ℕ) :
    find_similar_names t ns θ =
      List.insertionSort scoreGE
        ((ns.filter (keptCandidate t θ)).map fun n =>
          (n, candidateScore t.toLower n.toLower)) := by
  simp only [find_similar_names]
  congr 1
  rw [← filterMap_eq_map_filter (keptCandidate t θ)
    (fun n => (n, candidateScore t.toLower n.toLower)) ns]
  induction ns with
  | nil => rfl
  | cons x xs ih =>
    rw [List.filterMap_cons, List.filterMap_cons, ih, find_candidate_eq]

lemma filter_orderedInsert_pos (x : String × ℕ) (l : List (String × ℕ))
    (v : ℕ) (hx : x.2 = v) :
    (List.orderedInsert scoreGE x l).filter (fun p => decide (p.2 = v)) =
      x :: l.filter (fun p => decide (p.2 = v)) := by
  induction l with
  | nil => simp [List.orderedInsert, hx]
  | cons y ys ih =>
    rw [List.orderedInsert]
    by_cases hr : scoreGE x y
    · rw [if_pos hr]
      simp [List.filter_cons, hx]
    · rw [if_neg hr]
      have hlt : x.2 < y.2 := by
        rw [scoreGE] at hr
        omega
      have hy : ¬ y.2 = v := by omega
      simp [List.filter_cons, hy, ih]

lemma filter_orderedInsert_neg (x : String × ℕ) (l : List (String × ℕ))
    (v : ℕ) (hx : ¬ x.2 = v) :
    (List.orderedInsert scoreGE x l).filter (fun p => decide (p.2 = v)) =
      l.filter (fun p => decide (p.2 = v)) := by
  induction l with
  | nil => simp [List.orderedInsert, hx]
  | cons y ys ih =>
    rw [List.orderedInsert]
    by_cases hr : scoreGE x y
    · rw [if_pos hr]
      simp [List.filter_cons, hx]
    · rw [if_neg hr]
      simp [List.filter_cons, ih]

lemma filter_insertionSort_stable (l : List (String × ℕ)) (v : ℕ) :
    (List.insertionSort scoreGE l).filter (fun p => decide (p.2 = v)) =
      l.filter (fun p => decide (p.2 = v)) := by
  induction l with
  | nil => rfl
  | cons x xs ih =>
    rw [List.insertionSort]
    by_cases hx : x.2 = v
    · rw [filter_orderedInsert_pos x _ v hx, ih, List.filter_cons]
      simp [hx]
    · rw [filter_orderedInsert_neg x _ v hx, ih, List.filter_cons]
      simp [hx]

/-- Claim C7: `find_similar_names` returns exactly the candidates passing
both length pre-filters with score at least the threshold (as a
multiset: a permutation of the filtered, scored candidate list); the
output is sorted by score descending; the tie-break is stable (for every
score value, the run of entries with that score equals the corresponding
run of the filtered list, which preserves the original candidate order);
and no returned candidate is shorter than `max 3 (len target / 3)`. -/
theorem find_similar_names_spec (t : String) (ns : List String) (θ : ℕ) :
    (find_similar_names t ns θ).Perm
      ((ns.filter (keptCandidate t θ)).map fun n =>
        (n, candidateScore t.toLower n.toLower)) ∧
    (find_similar_names t ns θ).Sorted scoreGE ∧
    (∀ v : ℕ,
      (find_similar_names t ns θ).filter (fun p => decide (p.2 = v)) =
        ((ns.filter (keptCandidate t θ)).map fun n =>
          (n, candidateScore t.toLower n.toLower)).filter
          (fun p => decide (p.2 = v))) ∧
    ∀ p ∈ find_similar_names t ns θ, max 3 (t.length / 3) ≤ p.1.length := by
  rw [find_similar_names_eq]
  refine ⟨List.perm_insertionSort _ _, List.sorted_insertionSort _ _,
    fun v => filter_insertionSort_stable _ v, fun p hp => ?_⟩
  have hp' := (List.perm_insertionSort scoreGE _).mem_iff.mp hp
  obtain ⟨n, hn, hpn⟩ := List.mem_map.mp hp'
  have hkept := (List.mem_filter.mp hn).2
  rw [keptCandidate, Bool.and_eq_true, passesFilters, Bool.and_eq_true] at hkept
  have hlen := hkept.1.1
  rw [decide_eq_true_eq] at hlen
  rw [← hpn]
  exact hlen

/-- Witness for C7 at a concrete call: the result is sorted by descending
score and every kept candidate respects the minimum length. -/
theorem find_similar_names_spec_witness :
    (find_similar_names "abc" ["ab", "abcd"] 10).Sorted scoreGE ∧
    ∀ p ∈ find_similar_names "abc" ["ab", "abcd"] 10,
      max 3 ("abc".length / 3) ≤ p.1.length :=
  ⟨(find_similar_names_spec "abc" ["ab", "abcd"] 10).2.1,
    (find_similar_names_spec "abc" ["ab", "abcd"] 10).2.2.2⟩

/-! ## Findings analysis: proofs -/

lemma nameVariations_eq_spec (places : List PlaceInfo) :
    ∀ names : List String,
      nameVariations places names = variationsSpec places names := by
  intro names
  induction names with
  | nil => rfl
  | cons n1 rest ih =>
    rw [variationsSpec, ← ih]
    simp only [nameVariations, List.enum_cons', List.flatMap_cons,
      List.flatMap_map, List.drop_succ_cons, Prod.map_apply, id_eq,
      List.drop_zero]
    congr 1

lemma uniqueNamesOf_nodup (places : List PlaceInfo) :
    (uniqueNamesOf places).Nodup := by
  have h := (dedupByKey_keys (id : String → String)
    (places.map PlaceInfo.name) []).1
  simpa using h

lemma mem_dedupByKey_id :
    ∀ (l : List String) (seen : List String) (n : String),
      n ∈ dedupByKey id seen l ↔ n ∈ l ∧ n ∉ seen := by
  intro l
  induction l with
  | nil => intro seen n; simp [dedupByKey]
  | cons x xs ih =>
    intro seen n
    rw [dedupByKey]
    by_cases hx : id x ∈ seen
    · rw [if_pos hx, ih]
      simp only [List.mem_cons, id_eq] at hx ⊢
      constructor
      · rintro ⟨h1, h2⟩
        exact ⟨Or.inr h1, h2⟩
      · rintro ⟨h1 | h1, h2⟩
        · subst h1; exact absurd hx h2
        · exact ⟨h1, h2⟩
    · rw [if_neg hx]
      simp only [List.mem_cons, ih, id_eq] at hx ⊢
      constructor
      · rintro (rfl | ⟨h1, h2⟩)
        · exact ⟨Or.inl rfl, hx⟩
        · refine ⟨Or.inr h1, fun hc => h2 (Or.inr hc)⟩
      · rintro ⟨h1 | h1, h2⟩
        · exact Or.inl h1
        · by_cases hxn : n = x
          · exact Or.inl hxn
          · exact Or.inr ⟨h1, fun hc => by
              rcases hc with hc | hc
              · exact hxn hc
              · exact h2 hc⟩

lemma mem_uniqueNamesOf (places : List PlaceInfo) (n : String) :
    n ∈ uniqueNamesOf places ↔ n ∈ places.map PlaceInfo.name := by
  rw [uniqueNamesOf, mem_dedupByKey_id]
  simp

lemma mem_variationsSpec (places : List PlaceInfo) :
    ∀ (names : List String) (v : NameVariation),
      v ∈ variationsSpec places names →
      ∃ l₁ l₂ l₃, names = l₁ ++ v.name1 :: l₂ ++ v.name2 :: l₃ ∧
        v.similarity = fuzz_ratio v.name1.toLower v.name2.toLower ∧
        80 < v.similarity ∧
        v.places1 = nameGroup places v.name1 ∧
        v.places2 = nameGroup places v.name2 := by
  intro names
  induction names with
  | nil => intro v hv; simp [variationsSpec] at hv
  | cons n1 rest ih =>
    intro v hv
    rw [variationsSpec] at hv
    rcases List.mem_append.mp hv with hv | hv
    · obtain ⟨n2, hn2, hv2⟩ := List.mem_filterMap.mp hv
      by_cases hs : 80 < fuzz_ratio n1.toLower n2.toLower
      · rw [if_pos hs] at hv2
        simp only [Option.some.injEq] at hv2
        subst hv2
        obtain ⟨l₂, l₃, hsplit⟩ := List.append_of_mem hn2
        exact ⟨[], l₂, l₃, by rw [hsplit]; rfl, rfl, hs, rfl, rfl⟩
      · rw [if_neg hs] at hv2
        simp at hv2
    · obtain ⟨l₁, l₂, l₃, hsplit, h2, h3, h4, h5⟩ := ih v hv
      exact ⟨n1 :: l₁, l₂, l₃, by rw [hsplit]; rfl, h2, h3, h4, h5⟩

lemma variationsSpec_complete (places : List PlaceInfo) :
    ∀ (l₁ : List String) (n1 : String) (l₂ : List String) (n2 : String)
      (l₃ : List String),
      80 < fuzz_ratio n1.toLower n2.toLower →
      ({ name1 := n1, name2 := n2,
         similarity := fuzz_ratio n1.toLower n2.toLower,
         places1 := nameGroup places n1,
         places2 := nameGroup places n2 } : NameVariation) ∈
        variationsSpec places (l₁ ++ n1 :: l₂ ++ n2 :: l₃) := by
  intro l₁
  induction l₁ with
  | nil =>
    intro n1 l₂ n2 l₃ hs
    simp only [List.nil_append, List.cons_append]
    rw [variationsSpec]
    refine List.mem_append.mpr (Or.inl (List.mem_filterMap.mpr ⟨n2, by simp, ?_⟩))
    rw [if_pos hs]
  | cons x xs ih =>
    intro n1 l₂ n2 l₃ hs
    simp only [List.cons_append]
    rw [variationsSpec]
    refine List.mem_append.mpr (Or.inr ?_)
    have h := ih n1 l₂ n2 l₃ hs
    simpa only [List.cons_append] using h

/-- Claim C8: the name-variation output equals the claim-side pairwise
comparison (every unordered pair of distinct unique names, outer loop in
discovery order, inner loop over subsequent names, `fuzz.ratio` of the
lowercased names alone, strict threshold 80); every emitted pair has
distinct names occurring in the input, carries that ratio (above 80) and
the full groups of records sharing each name; and every above-threshold
pair of unique names (first-occurrence order) is emitted. -/
theorem analyze_name_variations_spec (places : List PlaceInfo) :
    (analyze_findings places).name_variations =
      variationsSpec places (uniqueNamesOf places) ∧
    (∀ v ∈ (analyze_findings places).name_variations,
      v.name1 ≠ v.name2 ∧
      v.name1 ∈ places.map PlaceInfo.name ∧
      v.name2 ∈ places.map PlaceInfo.name ∧
      v.similarity = fuzz_ratio v.name1.toLower v.name2.toLower ∧
      80 < v.similarity ∧
      v.places1 = nameGroup places v.name1 ∧
      v.places2 = nameGroup places v.name2) ∧
    ∀ (l₁ : List String) (n1 : String) (l₂ : List String) (n2 : String)
      (l₃ : List String),
      uniqueNamesOf places = l₁ ++ n1 :: l₂ ++ n2 :: l₃ →
      80 < fuzz_ratio n1.toLower n2.toLower →
      ({ name1 := n1, name2 := n2,
         similarity := fuzz_ratio n1.toLower n2.toLower,
         places1 := nameGroup places n1,
         places2 := nameGroup places n2 } : NameVariation) ∈
        (analyze_findings places).name_variations := by
  have hA : (analyze_findings places).name_variations =
      nameVariations places (uniqueNamesOf places) := rfl
  refine ⟨by rw [hA, nameVariations_eq_spec], fun v hv => ?_,
    fun l₁ n1 l₂ n2 l₃ hsplit hs => ?_⟩
  · rw [hA, nameVariations_eq_spec] at hv
    obtain ⟨l₁, l₂, l₃, hsplit, h2, h3, h4, h5⟩ :=
      mem_variationsSpec places (uniqueNamesOf places) v hv
    have hnd := uniqueNamesOf_nodup places
    rw [hsplit] at hnd
    have hne : v.name1 ≠ v.name2 := by
      have hdisj := List.disjoint_of_nodup_append hnd
      intro heq
      exact hdisj (List.mem_append_right l₁ (List.mem_cons_self _ _))
        (heq ▸ List.mem_cons_self _ _)
    have hm1 : v.name1 ∈ uniqueNamesOf places := by
      rw [hsplit]
      exact List.mem_append_left _
        (List.mem_append_right l₁ (List.mem_cons_self _ _))
    have hm2 : v.name2 ∈ uniqueNamesOf places := by
      rw [hsplit]
      exact List.mem_append_right _ (List.mem_cons_self _ _)
    exact ⟨hne, (mem_uniqueNamesOf places v.name1).mp hm1,
      (mem_uniqueNamesOf places v.name2).mp hm2, h2, h3, h4, h5⟩
  · rw [hA, nameVariations_eq_spec, hsplit]
    exact variationsSpec_complete places l₁ n1 l₂ n2 l₃ hs

/-- Witness for C8 at a concrete input. -/
theorem analyze_name_variations_spec_witness :
    (analyze_findings [lotusPlace]).name_variations =
      variationsSpec [lotusPlace] (uniqueNamesOf [lotusPlace]) :=
  (analyze_name_variations_spec [lotusPlace]).1

end PlaceDetective
